import Mathlib

/-!
Verification development for the go-testing repository.

The core under study is the in-memory user repository
(`InMemoryUserRepository` in package `database`): a Go map from `int`
to user records plus a `nextID` counter, with five operations
(`CreateUser`, `GetUser`, `UpdateUser`, `DeleteUser`, `ListUsers`),
and the four-operation calculator (package `calculator`).

Embedding choices:
- Go `int` is embedded as `Int` (the spec assumes no capacity limit and
  no arithmetic here approaches the 64-bit bound in any state considered).
- The Go map `map[int]*User` is embedded as an association list with
  partial-function semantics: insertion replaces any binding of the key,
  deletion removes the binding.  Go pointers are embedded by value.
- A Go `error` result is embedded as `Option String` (`none` = `nil`)
  or `Except String` for value-returning operations.
- The calculator's `float64` operands are embedded as exact rationals;
  the properties verified concern totality and the zero-divisor check,
  not rounding.
-/

/-- User record: `database.User` (fields `ID`, `Username`, `Email`). -/
structure User where
  ID : Int
  Username : String
  Email : String
deriving DecidableEq, Repr

/-- State of `database.InMemoryUserRepository`: the `users` map and the
`nextID` counter.  The `sync.RWMutex` field has no sequential content. -/
structure InMemoryUserRepository where
  users : List (Int × User)
  nextID : Int
deriving DecidableEq, Repr

/-- Go map deletion `delete(m, k)`: remove the binding of `k`. -/
def eraseKey (k : Int) (m : List (Int × User)) : List (Int × User) :=
  m.filter (fun p => p.1 ≠ k)

/-- Go map insertion `m[k] = v`: bind `k` to `v`, replacing any old binding. -/
def insertKey (k : Int) (v : User) (m : List (Int × User)) : List (Int × User) :=
  (k, v) :: eraseKey k m

/-- Go map lookup `m[k]`: `some` the bound value, `none` when absent. -/
def lookupKey (k : Int) (m : List (Int × User)) : Option User :=
  match m with
  | [] => none
  | (k', v) :: rest => if k' = k then some v else lookupKey k rest

/-- `database.NewUserRepository`: empty map, counter starts at 1. -/
def NewUserRepository : InMemoryUserRepository :=
  { users := [], nextID := 1 }

namespace InMemoryUserRepository

/-- `GetUser`: look the id up; error "user not found" when absent. -/
def GetUser (r : InMemoryUserRepository) (id : Int) : Except String User :=
  match lookupKey id r.users with
  | none => .error "user not found"
  | some user => .ok user

/-- `CreateUser`: overwrite the record's `ID` with `nextID`, increment
`nextID`, store the record under its new id, return `nil` error.
Result: (new state, the populated record as left in the caller's struct,
the returned error). -/
def CreateUser (r : InMemoryUserRepository) (user : User) :
    InMemoryUserRepository × User × Option String :=
  let user' := { user with ID := r.nextID }
  ({ users := insertKey user'.ID user' r.users, nextID := r.nextID + 1 },
   user', none)

/-- `UpdateUser`: error "user not found" unless `user.ID` is bound;
otherwise rebind `user.ID` to the given record. -/
def UpdateUser (r : InMemoryUserRepository) (user : User) :
    InMemoryUserRepository × Option String :=
  match lookupKey user.ID r.users with
  | none => (r, some "user not found")
  | some _ =>
      ({ r with users := insertKey user.ID user r.users }, none)

/-- `DeleteUser`: error "user not found" unless `id` is bound;
otherwise remove the binding. -/
def DeleteUser (r : InMemoryUserRepository) (id : Int) :
    InMemoryUserRepository × Option String :=
  match lookupKey id r.users with
  | none => (r, some "user not found")
  | some _ =>
      ({ r with users := eraseKey id r.users }, none)

/-- `ListUsers`: all stored records (order unspecified in Go; here the
association-list order), with `nil` error. -/
def ListUsers (r : InMemoryUserRepository) : List User × Option String :=
  (r.users.map Prod.snd, none)

end InMemoryUserRepository

/-- Core of `Server.updateUser` after decoding: force the record's id to
the path id (`user.ID = id`), then call the repository. -/
def updateUserByID (r : InMemoryUserRepository) (id : Int) (u : User) :
    InMemoryUserRepository × Option String :=
  r.UpdateUser { u with ID := id }

/-! Traces of mutating operations.  `GetUser` and `ListUsers` do not
change the state, so a history of repository calls is, for state
purposes, a list of creates, updates and deletes. -/

/-- One mutating repository call. -/
inductive Op where
  | create (u : User)
  | update (u : User)
  | delete (id : Int)
deriving DecidableEq, Repr

/-- State after one call. -/
def applyOp (r : InMemoryUserRepository) : Op → InMemoryUserRepository
  | .create u => (r.CreateUser u).1
  | .update u => (r.UpdateUser u).1
  | .delete id => (r.DeleteUser id).1

/-- State after a sequence of calls. -/
def exec (r : InMemoryUserRepository) (ops : List Op) :
    InMemoryUserRepository :=
  ops.foldl applyOp r

/-- Identifiers assigned by the creates of a trace, in call order. -/
def runIds (r : InMemoryUserRepository) (ops : List Op) : List Int :=
  match ops with
  | [] => []
  | .create u :: rest => (r.CreateUser u).2.1.ID :: runIds (applyOp r (.create u)) rest
  | op :: rest => runIds (applyOp r op) rest

/-- Folding `CreateUser` over a list of input records. -/
def createMany (r : InMemoryUserRepository) (us : List User) :
    InMemoryUserRepository :=
  exec r (us.map Op.create)

/-- Identifiers assigned by a sequence of creates. -/
def createManyIds (r : InMemoryUserRepository) (us : List User) : List Int :=
  runIds r (us.map Op.create)

/-- The repository invariant: every stored record is keyed by its own
identifier, and every key lies in [1, nextID). -/
def RepoInv (r : InMemoryUserRepository) : Prop :=
  ∀ p ∈ r.users, p.2.ID = p.1 ∧ 1 ≤ p.1 ∧ p.1 < r.nextID

instance (r : InMemoryUserRepository) : Decidable (RepoInv r) :=
  List.decidableBAll _ r.users

/-- States reachable from a fresh repository by repository calls
(`GetUser` and `ListUsers` leave the state unchanged). -/
inductive Reachable : InMemoryUserRepository → Prop where
  | new : Reachable NewUserRepository
  | step {r : InMemoryUserRepository} (h : Reachable r) (op : Op) :
      Reachable (applyOp r op)

/-- Whether a call stores to or removes the binding of `id`
(creates are proven below never to touch an already-assigned id). -/
def touchesId (id : Int) : Op → Bool
  | .create _ => false
  | .update u => u.ID == id
  | .delete i => i == id

/-- The list [start, start+1, ..., start+n-1]. -/
def seqIds (start : Int) : Nat → List Int
  | 0 => []
  | n + 1 => start :: seqIds (start + 1) n

/-- Sample record (from the spec scenario), used by concrete witnesses. -/
def uA : User := { ID := 0, Username := "a", Email := "a@x.com" }

/-- Second sample record, used by concrete witnesses. -/
def uB : User := { ID := 7, Username := "b", Email := "b@x.com" }

namespace Calculator

/-- `Calculator.Add`. -/
def Add (a b : ℚ) : ℚ := a + b

/-- `Calculator.Subtract`. -/
def Subtract (a b : ℚ) : ℚ := a - b

/-- `Calculator.Multiply`. -/
def Multiply (a b : ℚ) : ℚ := a * b

/-- `Calculator.Divide`: error "division by zero" when the divisor is
zero, otherwise the quotient. -/
def Divide (a b : ℚ) : Except String ℚ :=
  if b = 0 then .error "division by zero" else .ok (a / b)

end Calculator

/-! Basic facts about the Go-map embedding. -/

@[simp]
theorem lookupKey_nil (k : Int) : lookupKey k [] = none := rfl

@[simp]
theorem lookupKey_cons (k a : Int) (v : User) (m : List (Int × User)) :
    lookupKey k ((a, v) :: m) = if a = k then some v else lookupKey k m := rfl

theorem lookupKey_eraseKey (k k' : Int) (m : List (Int × User)) :
    lookupKey k' (eraseKey k m) =
      if k' = k then none else lookupKey k' m := by
  induction m with
  | nil => simp [eraseKey]
  | cons p rest ih =>
    obtain ⟨a, v⟩ := p
    simp only [eraseKey, List.filter_cons] at *
    by_cases hak : a = k <;> by_cases hk : k' = k <;>
      by_cases hak' : a = k' <;> simp_all [eraseKey]

theorem lookupKey_insertKey (k k' : Int) (v : User) (m : List (Int × User)) :
    lookupKey k' (insertKey k v m) =
      if k = k' then some v else lookupKey k' m := by
  by_cases h : k = k'
  · simp [insertKey, h, lookupKey_eraseKey]
  · simp [insertKey, h, lookupKey_eraseKey, Ne.symm h]

theorem lookupKey_eq_none_iff (k : Int) (m : List (Int × User)) :
    lookupKey k m = none ↔ ∀ p ∈ m, p.1 ≠ k := by
  induction m with
  | nil => simp
  | cons p rest ih =>
    obtain ⟨a, v⟩ := p
    by_cases h : a = k <;> simp_all

theorem eraseKey_of_lookupKey_none (k : Int) (m : List (Int × User))
    (h : lookupKey k m = none) : eraseKey k m = m := by
  rw [eraseKey, List.filter_eq_self]
  intro p hp
  simpa using (lookupKey_eq_none_iff k m).1 h p hp

theorem lookupKey_some_mem (k : Int) (v : User) (m : List (Int × User))
    (h : lookupKey k m = some v) : (k, v) ∈ m := by
  induction m with
  | nil => simp at h
  | cons p rest ih =>
    obtain ⟨a, w⟩ := p
    by_cases hak : a = k
    · subst hak
      simp at h
      simp [h]
    · simp [hak] at h
      exact List.mem_cons_of_mem _ (ih h)

/-! Unfolding equations for operations and traces. -/

theorem GetUser_eq_error (r : InMemoryUserRepository) (id : Int)
    (h : lookupKey id r.users = none) :
    r.GetUser id = .error "user not found" := by
  simp [InMemoryUserRepository.GetUser, h]

theorem GetUser_eq_ok (r : InMemoryUserRepository) (id : Int) (w : User)
    (h : lookupKey id r.users = some w) : r.GetUser id = .ok w := by
  simp [InMemoryUserRepository.GetUser, h]

theorem UpdateUser_absent (r : InMemoryUserRepository) (u : User)
    (h : lookupKey u.ID r.users = none) :
    r.UpdateUser u = (r, some "user not found") := by
  simp [InMemoryUserRepository.UpdateUser, h]

theorem UpdateUser_present (r : InMemoryUserRepository) (u w : User)
    (h : lookupKey u.ID r.users = some w) :
    r.UpdateUser u = ({ r with users := insertKey u.ID u r.users }, none) := by
  simp [InMemoryUserRepository.UpdateUser, h]

theorem DeleteUser_absent (r : InMemoryUserRepository) (id : Int)
    (h : lookupKey id r.users = none) :
    r.DeleteUser id = (r, some "user not found") := by
  simp [InMemoryUserRepository.DeleteUser, h]

theorem DeleteUser_present (r : InMemoryUserRepository) (id : Int) (w : User)
    (h : lookupKey id r.users = some w) :
    r.DeleteUser id = ({ r with users := eraseKey id r.users }, none) := by
  simp [InMemoryUserRepository.DeleteUser, h]

@[simp]
theorem applyOp_create (r : InMemoryUserRepository) (u : User) :
    applyOp r (Op.create u) =
      { users := insertKey r.nextID { u with ID := r.nextID } r.users,
        nextID := r.nextID + 1 } := rfl

@[simp]
theorem exec_nil (r : InMemoryUserRepository) : exec r [] = r := rfl

@[simp]
theorem exec_cons (r : InMemoryUserRepository) (op : Op) (ops : List Op) :
    exec r (op :: ops) = exec (applyOp r op) ops := rfl

theorem exec_append (r : InMemoryUserRepository) (l1 l2 : List Op) :
    exec r (l1 ++ l2) = exec (exec r l1) l2 := by
  simp [exec, List.foldl_append]

@[simp]
theorem runIds_nil (r : InMemoryUserRepository) : runIds r [] = [] := rfl

@[simp]
theorem runIds_create (r : InMemoryUserRepository) (u : User) (ops : List Op) :
    runIds r (Op.create u :: ops) =
      r.nextID :: runIds (applyOp r (Op.create u)) ops := rfl

@[simp]
theorem runIds_update (r : InMemoryUserRepository) (u : User) (ops : List Op) :
    runIds r (Op.update u :: ops) = runIds (applyOp r (Op.update u)) ops := rfl

@[simp]
theorem runIds_delete (r : InMemoryUserRepository) (id : Int) (ops : List Op) :
    runIds r (Op.delete id :: ops) = runIds (applyOp r (Op.delete id)) ops := rfl

/-! Counter monotonicity and the reachable-state invariant. -/

theorem nextID_applyOp (r : InMemoryUserRepository) (op : Op) :
    r.nextID ≤ (applyOp r op).nextID := by
  cases op with
  | create u => simp
  | update u =>
    cases h : lookupKey u.ID r.users with
    | none => simp [applyOp, UpdateUser_absent r u h]
    | some w => simp [applyOp, UpdateUser_present r u w h]
  | delete id =>
    cases h : lookupKey id r.users with
    | none => simp [applyOp, DeleteUser_absent r id h]
    | some w => simp [applyOp, DeleteUser_present r id w h]

theorem nextID_exec (r : InMemoryUserRepository) (ops : List Op) :
    r.nextID ≤ (exec r ops).nextID := by
  induction ops generalizing r with
  | nil => simp
  | cons op rest ih =>
    exact le_trans (nextID_applyOp r op) (ih (applyOp r op))

theorem mem_eraseKey_sub (k : Int) (m : List (Int × User)) (p : Int × User)
    (hp : p ∈ eraseKey k m) : p ∈ m :=
  (List.mem_filter.1 hp).1

theorem repoInv_applyOp (r : InMemoryUserRepository) (op : Op)
    (h1 : 1 ≤ r.nextID) (h2 : RepoInv r) :
    1 ≤ (applyOp r op).nextID ∧ RepoInv (applyOp r op) := by
  cases op with
  | create u =>
    refine ⟨by simp; omega, ?_⟩
    intro p hp
    simp only [applyOp_create, insertKey, List.mem_cons] at hp
    rcases hp with rfl | hp
    · exact ⟨rfl, h1, by simp⟩
    · obtain ⟨hid, hlo, hhi⟩ := h2 p (mem_eraseKey_sub _ _ _ hp)
      exact ⟨hid, hlo, by simp; omega⟩
  | update u =>
    cases h : lookupKey u.ID r.users with
    | none => simpa [applyOp, UpdateUser_absent r u h] using ⟨h1, h2⟩
    | some w =>
      refine ⟨by simpa [applyOp, UpdateUser_present r u w h] using h1, ?_⟩
      intro p hp
      simp only [applyOp, UpdateUser_present r u w h, insertKey,
        List.mem_cons] at hp
      obtain ⟨_, hlo, hhi⟩ := h2 (u.ID, w) (lookupKey_some_mem _ _ _ h)
      rcases hp with rfl | hp
      · exact ⟨rfl, by simpa [applyOp, UpdateUser_present r u w h] using hlo,
          by simpa [applyOp, UpdateUser_present r u w h] using hhi⟩
      · obtain ⟨hid, hlo', hhi'⟩ := h2 p (mem_eraseKey_sub _ _ _ hp)
        exact ⟨hid, by simpa [applyOp, UpdateUser_present r u w h] using hlo',
          by simpa [applyOp, UpdateUser_present r u w h] using hhi'⟩
  | delete id =>
    cases h : lookupKey id r.users with
    | none => simpa [applyOp, DeleteUser_absent r id h] using ⟨h1, h2⟩
    | some w =>
      refine ⟨by simpa [applyOp, DeleteUser_present r id w h] using h1, ?_⟩
      intro p hp
      simp only [applyOp, DeleteUser_present r id w h] at hp
      obtain ⟨hid, hlo, hhi⟩ := h2 p (mem_eraseKey_sub _ _ _ hp)
      exact ⟨hid, by simpa [applyOp, DeleteUser_present r id w h] using hlo,
        by simpa [applyOp, DeleteUser_present r id w h] using hhi⟩

theorem reachable_strong_inv (r : InMemoryUserRepository)
    (h : Reachable r) : 1 ≤ r.nextID ∧ RepoInv r := by
  induction h with
  | new =>
    refine ⟨by simp [NewUserRepository], ?_⟩
    intro p hp
    simp [NewUserRepository] at hp
  | step h op ih => exact repoInv_applyOp _ op ih.1 ih.2

theorem reachable_exec (r : InMemoryUserRepository) (ops : List Op)
    (h : Reachable r) : Reachable (exec r ops) := by
  induction ops generalizing r with
  | nil => simpa using h
  | cons op rest ih => exact ih _ (Reachable.step h op)

/-! Assigned identifiers: lower bound and strict increase. -/

theorem runIds_bound_pairwise (ops : List Op) :
    ∀ r : InMemoryUserRepository,
      (∀ i ∈ runIds r ops, r.nextID ≤ i) ∧
      List.Pairwise (· < ·) (runIds r ops) := by
  induction ops with
  | nil => intro r; simp
  | cons op rest ih =>
    intro r
    cases op with
    | create u =>
      obtain ⟨hb, hp⟩ := ih (applyOp r (Op.create u))
      have hnext : (applyOp r (Op.create u)).nextID = r.nextID + 1 := by simp
      rw [hnext] at hb
      simp only [runIds_create]
      constructor
      · intro i hi
        rcases List.mem_cons.1 hi with rfl | hi
        · exact le_refl _
        · have := hb i hi
          omega
      · refine List.pairwise_cons.2 ⟨?_, hp⟩
        intro i hi
        have := hb i hi
        omega
    | update u =>
      obtain ⟨hb, hp⟩ := ih (applyOp r (Op.update u))
      have hnext := nextID_applyOp r (Op.update u)
      exact ⟨fun i hi => le_trans hnext (hb i (by simpa using hi)),
        by simpa using hp⟩
    | delete id =>
      obtain ⟨hb, hp⟩ := ih (applyOp r (Op.delete id))
      have hnext := nextID_applyOp r (Op.delete id)
      exact ⟨fun i hi => le_trans hnext (hb i (by simpa using hi)),
        by simpa using hp⟩

/-! Preservation of absence and of stored bindings along a trace. -/

theorem lookup_none_exec (post : List Op) :
    ∀ r : InMemoryUserRepository, ∀ id : Int, id < r.nextID →
      lookupKey id r.users = none →
      lookupKey id (exec r post).users = none := by
  induction post with
  | nil => intro r id _ h; simpa using h
  | cons op rest ih =>
    intro r id hlt hnone
    cases op with
    | create u =>
      refine ih _ id (by simp; omega) ?_
      simp only [applyOp_create, lookupKey_insertKey]
      rw [if_neg (by omega : ¬ r.nextID = id)]
      exact hnone
    | update u =>
      cases h : lookupKey u.ID r.users with
      | none =>
        refine ih _ id ?_ ?_ <;> simp [applyOp, UpdateUser_absent r u h]
        · exact hlt
        · exact hnone
      | some w =>
        have hne : u.ID ≠ id := by
          intro heq
          rw [heq] at h
          rw [h] at hnone
          exact Option.noConfusion hnone
        refine ih _ id ?_ ?_ <;>
          simp [applyOp, UpdateUser_present r u w h, lookupKey_insertKey, hne]
        · exact hlt
        · exact hnone
    | delete i =>
      cases h : lookupKey i r.users with
      | none =>
        refine ih _ id ?_ ?_ <;> simp [applyOp, DeleteUser_absent r i h]
        · exact hlt
        · exact hnone
      | some w =>
        refine ih _ id ?_ ?_ <;>
          simp [applyOp, DeleteUser_present r i w h, lookupKey_eraseKey]
        · exact hlt
        · intro _
          exact hnone

theorem lookup_exec_source (ops : List Op) :
    ∀ r : InMemoryUserRepository, ∀ id : Int,
      lookupKey id (exec r ops).users ≠ none →
      lookupKey id r.users ≠ none ∨ id ∈ runIds r ops := by
  induction ops with
  | nil => intro r id h; exact Or.inl (by simpa using h)
  | cons op rest ih =>
    intro r id h
    have hrec := ih (applyOp r op) id (by simpa using h)
    cases op with
    | create u =>
      rcases hrec with h1 | h1
      · by_cases heq : r.nextID = id
        · refine Or.inr ?_
          rw [runIds_create, ← heq]
          exact List.mem_cons_self _ _
        · refine Or.inl ?_
          simpa [lookupKey_insertKey, heq] using h1
      · refine Or.inr ?_
        rw [runIds_create]
        exact List.mem_cons_of_mem _ h1
    | update u =>
      rcases hrec with h1 | h1
      · cases hl : lookupKey u.ID r.users with
        | none => exact Or.inl (by simpa [applyOp, UpdateUser_absent r u hl] using h1)
        | some w =>
          by_cases heq : u.ID = id
          · rw [heq] at hl
            exact Or.inl (by simp [hl])
          · refine Or.inl ?_
            simpa [applyOp, UpdateUser_present r u w hl,
              lookupKey_insertKey, heq] using h1
      · exact Or.inr (by simpa using h1)
    | delete i =>
      rcases hrec with h1 | h1
      · cases hl : lookupKey i r.users with
        | none => exact Or.inl (by simpa [applyOp, DeleteUser_absent r i hl] using h1)
        | some w =>
          by_cases heq : id = i
          · exact absurd (by simp [applyOp, DeleteUser_present r i w hl,
              lookupKey_eraseKey, heq]) h1
          · refine Or.inl ?_
            simpa [applyOp, DeleteUser_present r i w hl,
              lookupKey_eraseKey, heq] using h1
      · exact Or.inr (by simpa using h1)

theorem lookup_some_exec (post : List Op) :
    ∀ r : InMemoryUserRepository, ∀ id : Int, ∀ v : User, id < r.nextID →
      lookupKey id r.users = some v →
      (∀ op ∈ post, touchesId id op = false) →
      lookupKey id (exec r post).users = some v := by
  induction post with
  | nil => intro r id v _ hv _; simpa using hv
  | cons op rest ih =>
    intro r id v hlt hv htouch
    have hrest : ∀ op ∈ rest, touchesId id op = false :=
      fun o ho => htouch o (List.mem_cons_of_mem _ ho)
    cases op with
    | create u =>
      refine ih _ id v (by simp; omega) ?_ hrest
      simp only [applyOp_create, lookupKey_insertKey]
      rw [if_neg (by omega : ¬ r.nextID = id)]
      exact hv
    | update u =>
      have hne : u.ID ≠ id := by
        have := htouch (Op.update u) (List.mem_cons_self _ _)
        simpa [touchesId] using this
      cases hl : lookupKey u.ID r.users with
      | none =>
        refine ih _ id v ?_ ?_ hrest <;>
          simp [applyOp, UpdateUser_absent r u hl]
        · exact hlt
        · exact hv
      | some w =>
        refine ih _ id v ?_ ?_ hrest <;>
          simp [applyOp, UpdateUser_present r u w hl, lookupKey_insertKey, hne]
        · exact hlt
        · exact hv
    | delete i =>
      have hne : i ≠ id := by
        have := htouch (Op.delete i) (List.mem_cons_self _ _)
        simpa [touchesId] using this
      cases hl : lookupKey i r.users with
      | none =>
        refine ih _ id v ?_ ?_ hrest <;>
          simp [applyOp, DeleteUser_absent r i hl]
        · exact hlt
        · exact hv
      | some w =>
        have hne' : id ≠ i := fun hh => hne hh.symm
        refine ih _ id v ?_ ?_ hrest <;>
          simp [applyOp, DeleteUser_present r i w hl, lookupKey_eraseKey, hne']
        · exact hlt
        · exact hv

/-! Sequences of creates. -/

@[simp]
theorem createMany_nil (r : InMemoryUserRepository) : createMany r [] = r := rfl

@[simp]
theorem createMany_cons (r : InMemoryUserRepository) (u : User) (us : List User) :
    createMany r (u :: us) = createMany (applyOp r (Op.create u)) us := rfl

@[simp]
theorem createManyIds_nil (r : InMemoryUserRepository) : createManyIds r [] = [] := rfl

@[simp]
theorem createManyIds_cons (r : InMemoryUserRepository) (u : User)
    (us : List User) :
    createManyIds r (u :: us) =
      r.nextID :: createManyIds (applyOp r (Op.create u)) us := rfl

theorem createManyIds_eq_seqIds (us : List User) :
    ∀ r : InMemoryUserRepository,
      createManyIds r us = seqIds r.nextID us.length := by
  induction us with
  | nil => intro r; simp [seqIds]
  | cons u rest ih =>
    intro r
    simp only [createManyIds_cons, List.length_cons, seqIds, ih]
    simp

theorem seqIds_eq_range_map (n : Nat) :
    ∀ start : Int,
      seqIds start n = (List.range n).map (fun i : Nat => start + (i : Int)) := by
  induction n with
  | zero => intro start; simp [seqIds]
  | succ n ih =>
    intro start
    rw [seqIds, List.range_succ_eq_map, List.map_cons, List.map_map, ih]
    congr 1
    · simp
    · refine List.map_congr_left ?_
      intro i _
      simp [Function.comp]
      ring

theorem seqIds_length (n : Nat) : ∀ start : Int, (seqIds start n).length = n := by
  induction n with
  | zero => intro start; rfl
  | succ n ih => intro start; simp [seqIds, ih]

theorem createMany_users_ids_perm (us : List User) :
    ∀ r : InMemoryUserRepository, 1 ≤ r.nextID → RepoInv r →
      List.Perm ((createMany r us).users.map (fun p => p.2.ID))
        (createManyIds r us ++ r.users.map (fun p => p.2.ID)) := by
  induction us with
  | nil => intro r _ _; simp
  | cons u rest ih =>
    intro r h1 h2
    have hnone : lookupKey r.nextID r.users = none := by
      refine (lookupKey_eq_none_iff _ _).2 ?_
      intro p hp
      have := (h2 p hp).2.2
      omega
    have husers : (applyOp r (Op.create u)).users =
        (r.nextID, { u with ID := r.nextID }) :: r.users := by
      simp [insertKey, eraseKey_of_lookupKey_none _ _ hnone]
    obtain ⟨h1', h2'⟩ := repoInv_applyOp r (Op.create u) h1 h2
    have hrec := ih (applyOp r (Op.create u)) h1' h2'
    rw [husers] at hrec
    simp only [createMany_cons, createManyIds_cons, List.map_cons] at hrec ⊢
    refine hrec.trans ?_
    rw [List.cons_append]
    exact List.perm_middle

/-! The claims. -/

/-- C1: a sequence of n `CreateUser` calls performed sequentially on a
fresh repository assigns exactly the identifiers 1, 2, ..., n in
call-completion order, with no duplicates and no gaps. -/
theorem create_ids_sequential (us : List User) :
    createManyIds NewUserRepository us =
      (List.range us.length).map (fun i : Nat => (i : Int) + 1) := by
  rw [createManyIds_eq_seqIds]
  have h1 : NewUserRepository.nextID = 1 := rfl
  rw [h1, seqIds_eq_range_map]
  refine List.map_congr_left ?_
  intro i _
  ring

/-- C3: for every repository state and every input record, `CreateUser`
returns a nil error, ignores any caller-supplied identifier, assigns the
current counter value (which starts at 1 in a fresh repository) as the
record's identifier, stores the record under it, and increments the
counter exactly once. -/
theorem createUser_spec (r : InMemoryUserRepository) (u : User) :
    (r.CreateUser u).2.2 = none ∧
    (r.CreateUser u).2.1 = { u with ID := r.nextID } ∧
    lookupKey r.nextID (r.CreateUser u).1.users =
      some { u with ID := r.nextID } ∧
    (r.CreateUser u).1.nextID = r.nextID + 1 ∧
    (∀ j : Int, r.CreateUser { u with ID := j } = r.CreateUser u) ∧
    NewUserRepository.nextID = 1 := by
  refine ⟨rfl, rfl, ?_, rfl, fun j => rfl, rfl⟩
  simp [InMemoryUserRepository.CreateUser, lookupKey_insertKey]

/-- C4: for every stored identifier `id` and record `u`, updating `id`
with `u` (through the server path, which forces the record's id to `id`)
and then getting `id` yields a record whose username and email are `u`'s
and whose identifier is `id`, regardless of any identifier in `u`; the
stored record is a pure overwrite. -/
theorem update_then_get (r : InMemoryUserRepository) (id : Int) (u : User)
    (h : lookupKey id r.users ≠ none) :
    (updateUserByID r id u).2 = none ∧
    (updateUserByID r id u).1.GetUser id =
      .ok { ID := id, Username := u.Username, Email := u.Email } := by
  cases hl : lookupKey id r.users with
  | none => exact absurd hl h
  | some w =>
    unfold updateUserByID
    rw [UpdateUser_present r { u with ID := id } w hl]
    refine ⟨rfl, ?_⟩
    refine GetUser_eq_ok _ _ _ ?_
    simp [lookupKey_insertKey]

/-- C4 witness: concrete update-then-get on a one-record repository. -/
theorem update_then_get_witness :
    (updateUserByID (exec NewUserRepository [Op.create uA]) 1 uB).2 = none ∧
    (updateUserByID (exec NewUserRepository [Op.create uA]) 1 uB).1.GetUser 1 =
      .ok { ID := 1, Username := uB.Username, Email := uB.Email } :=
  update_then_get (exec NewUserRepository [Op.create uA]) 1 uB (by decide)

/-- C5: identifiers assigned by creates are strictly increasing along
every trace of repository calls from a fresh repository, and once an
identifier present in the store is deleted, no later create ever assigns
it again. -/
theorem ids_increasing_never_reused :
    (∀ ops : List Op,
       List.Pairwise (· < ·) (runIds NewUserRepository ops)) ∧
    (∀ pre : List Op, ∀ id : Int, ∀ post : List Op,
       lookupKey id (exec NewUserRepository pre).users ≠ none →
       id ∉ runIds (exec NewUserRepository (pre ++ [Op.delete id])) post) := by
  constructor
  · intro ops
    exact (runIds_bound_pairwise ops NewUserRepository).2
  · intro pre id post h
    cases hl : lookupKey id (exec NewUserRepository pre).users with
    | none => exact absurd hl h
    | some w =>
      have hreach := reachable_exec NewUserRepository pre Reachable.new
      have hinv := (reachable_strong_inv _ hreach).2
      have hlt : id < (exec NewUserRepository pre).nextID :=
        (hinv (id, w) (lookupKey_some_mem _ _ _ hl)).2.2
      intro hmem
      have hb := (runIds_bound_pairwise post
        (exec NewUserRepository (pre ++ [Op.delete id]))).1 id hmem
      have hn : (exec NewUserRepository pre).nextID ≤
          (exec NewUserRepository (pre ++ [Op.delete id])).nextID := by
        rw [exec_append]
        exact nextID_exec _ _
      omega

/-- C5 witness: after creating id 1 and deleting it, a later create does
not assign 1 again. -/
theorem ids_increasing_never_reused_witness :
    1 ∉ runIds (exec NewUserRepository ([Op.create uA] ++ [Op.delete 1]))
        [Op.create uB] :=
  ids_increasing_never_reused.2 [Op.create uA] 1 [Op.create uB] (by decide)

/-- C6: `DeleteUser` fails with "user not found" when the identifier is
absent; when present it succeeds and removes the record, after which a
get fails and a second delete also fails (not a no-op success). -/
theorem deleteUser_spec (r : InMemoryUserRepository) (id : Int) :
    (lookupKey id r.users = none →
       r.DeleteUser id = (r, some "user not found")) ∧
    (lookupKey id r.users ≠ none →
       (r.DeleteUser id).2 = none ∧
       (r.DeleteUser id).1.GetUser id = .error "user not found" ∧
       ((r.DeleteUser id).1.DeleteUser id).2 = some "user not found") := by
  constructor
  · intro h
    exact DeleteUser_absent r id h
  · intro h
    cases hl : lookupKey id r.users with
    | none => exact absurd hl h
    | some w =>
      rw [DeleteUser_present r id w hl]
      have herase : lookupKey id (eraseKey id r.users) = none := by
        rw [lookupKey_eraseKey]
        simp
      exact ⟨rfl, GetUser_eq_error _ _ herase,
        by rw [DeleteUser_absent _ id herase]⟩

/-- C6 witness: concrete deletes on a one-record repository. -/
theorem deleteUser_spec_witness :
    (exec NewUserRepository [Op.create uA]).DeleteUser 5 =
      (exec NewUserRepository [Op.create uA], some "user not found") ∧
    ((exec NewUserRepository [Op.create uA]).DeleteUser 1).2 = none ∧
    ((exec NewUserRepository [Op.create uA]).DeleteUser 1).1.GetUser 1 =
      .error "user not found" ∧
    (((exec NewUserRepository [Op.create uA]).DeleteUser 1).1.DeleteUser 1).2 =
      some "user not found" :=
  ⟨(deleteUser_spec (exec NewUserRepository [Op.create uA]) 5).1 (by decide),
   (deleteUser_spec (exec NewUserRepository [Op.create uA]) 1).2 (by decide)⟩

/-- C7: a get after a create that returned `id` (with no intervening
call deleting or overwriting `id`) returns exactly the stored record; a
get on an identifier never assigned by a create fails with "user not
found"; and a get after a successful delete of `id` fails with "user not
found" however the trace continues. -/
theorem getUser_spec :
    (∀ pre : List Op, ∀ u : User, ∀ post : List Op,
       (∀ op ∈ post,
          touchesId (exec NewUserRepository pre).nextID op = false) →
       (exec NewUserRepository (pre ++ Op.create u :: post)).GetUser
           (exec NewUserRepository pre).nextID =
         .ok { u with ID := (exec NewUserRepository pre).nextID }) ∧
    (∀ ops : List Op, ∀ id : Int, id ∉ runIds NewUserRepository ops →
       (exec NewUserRepository ops).GetUser id = .error "user not found") ∧
    (∀ pre : List Op, ∀ id : Int, ∀ post : List Op,
       lookupKey id (exec NewUserRepository pre).users ≠ none →
       (exec NewUserRepository (pre ++ Op.delete id :: post)).GetUser id =
         .error "user not found") := by
  refine ⟨?_, ?_, ?_⟩
  · intro pre u post htouch
    rw [exec_append, exec_cons]
    refine GetUser_eq_ok _ _ _ ?_
    refine lookup_some_exec post _ _ _ (by simp) ?_ htouch
    simp [lookupKey_insertKey]
  · intro ops id hid
    refine GetUser_eq_error _ _ ?_
    by_contra h
    rcases lookup_exec_source ops NewUserRepository id h with h1 | h1
    · exact h1 rfl
    · exact hid h1
  · intro pre id post h
    cases hl : lookupKey id (exec NewUserRepository pre).users with
    | none => exact absurd hl h
    | some w =>
      have hreach := reachable_exec NewUserRepository pre Reachable.new
      have hinv := (reachable_strong_inv _ hreach).2
      have hlt : id < (exec NewUserRepository pre).nextID :=
        (hinv (id, w) (lookupKey_some_mem _ _ _ hl)).2.2
      rw [exec_append, exec_cons]
      refine GetUser_eq_error _ _ ?_
      refine lookup_none_exec post _ id ?_ ?_
      · exact lt_of_lt_of_le hlt
          (nextID_applyOp (exec NewUserRepository pre) (Op.delete id))
      · simp [applyOp, DeleteUser_present (exec NewUserRepository pre) id w hl,
          lookupKey_eraseKey]

/-- C7 witness: concrete instances of the three get behaviours. -/
theorem getUser_spec_witness :
    (exec NewUserRepository ([] ++ Op.create uA :: [])).GetUser 1 =
      .ok { uA with ID := 1 } ∧
    (exec NewUserRepository [Op.create uA]).GetUser 5 =
      .error "user not found" ∧
    (exec NewUserRepository
        ([Op.create uA] ++ Op.delete 1 :: [Op.create uB])).GetUser 1 =
      .error "user not found" :=
  ⟨getUser_spec.1 [] uA [] (by decide),
   getUser_spec.2.1 [Op.create uA] 5 (by decide),
   getUser_spec.2.2 [Op.create uA] 1 [Op.create uB] (by decide)⟩

/-- C8: `ListUsers` on a fresh repository returns an empty collection
and a nil error; after n creates and no deletes it returns a nil error
and exactly n records whose identifiers are precisely the n assigned
values, in some order. -/
theorem listUsers_spec :
    NewUserRepository.ListUsers = ([], none) ∧
    ∀ us : List User,
      ((createMany NewUserRepository us).ListUsers).2 = none ∧
      ((createMany NewUserRepository us).ListUsers).1.length = us.length ∧
      List.Perm (((createMany NewUserRepository us).ListUsers).1.map User.ID)
        (createManyIds NewUserRepository us) := by
  refine ⟨rfl, ?_⟩
  intro us
  have hperm := createMany_users_ids_perm us NewUserRepository
    (by norm_num [NewUserRepository])
    (by intro p hp; simp [NewUserRepository] at hp)
  have hperm' : List.Perm
      ((createMany NewUserRepository us).users.map (fun p => p.2.ID))
      (createManyIds NewUserRepository us) := by
    simpa [NewUserRepository] using hperm
  have hidlen : (createManyIds NewUserRepository us).length = us.length := by
    rw [createManyIds_eq_seqIds]
    exact seqIds_length _ _
  refine ⟨rfl, ?_, ?_⟩
  · have hlen := hperm'.length_eq
    simp only [List.length_map] at hlen
    simp [InMemoryUserRepository.ListUsers, hlen, hidlen]
  · simpa [InMemoryUserRepository.ListUsers, List.map_map,
      Function.comp] using hperm'

/-- C9: the calculator's division fails with "division by zero" exactly
when the divisor is zero and otherwise returns the quotient; addition,
subtraction and multiplication are total functions of their operands
(they cannot fail), including on zero, negative and fractional values. -/
theorem calculator_spec (a b : ℚ) :
    (Calculator.Divide a b = .error "division by zero" ↔ b = 0) ∧
    (b ≠ 0 → Calculator.Divide a b = .ok (a / b)) ∧
    Calculator.Add a b = a + b ∧
    Calculator.Subtract a b = a - b ∧
    Calculator.Multiply a b = a * b := by
  refine ⟨⟨?_, ?_⟩, ?_, rfl, rfl, rfl⟩
  · intro h
    by_contra hb
    simp [Calculator.Divide, hb] at h
  · intro h
    simp [Calculator.Divide, h]
  · intro h
    simp [Calculator.Divide, h]

/-- C9 witness: division succeeds on negative fractional operands and
fails on a zero divisor. -/
theorem calculator_spec_witness :
    Calculator.Divide (-5/2 : ℚ) (3/4 : ℚ) =
      .ok ((-5/2 : ℚ) / (3/4 : ℚ)) ∧
    Calculator.Divide (5 : ℚ) 0 = .error "division by zero" :=
  ⟨(calculator_spec (-5/2) (3/4)).2.1 (by norm_num),
   (calculator_spec 5 0).1.2 rfl⟩

/-- C10: in every state reachable from a fresh repository by repository
calls, every stored record is keyed by its own identifier and every key
lies between 1 and nextID - 1; every operation preserves this. -/
theorem reachable_repoInv (r : InMemoryUserRepository)
    (h : Reachable r) : RepoInv r :=
  (reachable_strong_inv r h).2

/-- C10 witness: the invariant holds of the concrete reachable state
obtained by one create. -/
theorem reachable_repoInv_witness :
    RepoInv (applyOp NewUserRepository (Op.create uA)) :=
  reachable_repoInv _ (Reachable.step Reachable.new (Op.create uA))
